import Mathlib

/-
Verification development for the vibe-backtester repository.

The repository ships a browser frontend (stock selection, request
validation, search, charting) together with a specification of a backtest
simulation and metrics engine served by a backend.  The backend engine
itself is not part of the checked-in sources, so the simulators, the
metrics library and the comparison summary are modelled here directly from
the specification text; the frontend logic (parameter validation, the
selected-stock state machine, the stock search) is embedded from the
JavaScript sources.

All monetary quantities and prices are modelled as rationals, so every
identity that the specification states "within floating-point tolerance"
is proved exactly.
-/

namespace Backtester

/-! ### Calendar dates -/

/-- A calendar date, ordered lexicographically. -/
structure Date where
  year : Nat
  month : Nat
  day : Nat
deriving DecidableEq, Repr

/-- Strict lexicographic order on dates. -/
def dateLt (a b : Date) : Prop :=
  a.year < b.year ∨
    (a.year = b.year ∧ (a.month < b.month ∨ (a.month = b.month ∧ a.day < b.day)))

instance (a b : Date) : Decidable (dateLt a b) := by
  unfold dateLt
  infer_instance

/-- The absolute month number of a date: two dates lie in the same calendar
month exactly when their `monthIdx` agree. -/
def monthIdx (d : Date) : Nat := d.year * 12 + d.month

/-! ### Price series and trajectories -/

/-- One day of price data: a trading date and its closing price. -/
structure PricePoint where
  date : Date
  close : ℚ
deriving DecidableEq, Repr

/-- One day of a portfolio trajectory: the date, the portfolio value on
that date, and the capital invested up to and including that date. -/
structure TrajPoint where
  date : Date
  value : ℚ
  invested : ℚ
deriving DecidableEq, Repr

/-- Failures of a strategy simulator. -/
inductive SimError where
  | invalidInvestment
  | insufficientData
deriving DecidableEq, Repr

/-- The last portfolio value of a trajectory (`0` for an empty one). -/
def finalValue (traj : List TrajPoint) : ℚ :=
  match traj.getLast? with
  | none => 0
  | some pt => pt.value

/-! ### Lump Sum simulator -/

/-- Modelled from the spec: the Lump Sum strategy simulator of the backend
(`backend/services/backtest_service.py`), absent from the checked-in
sources.  The simulator fails with `invalidInvestment` when the amount is
not positive; otherwise, at the first date of the series it purchases
`shares = amount / close[0]` (fractional shares allowed), the value on
each date `d` is `shares * close[d]`, and the invested capital is the
constant `amount`. -/
def simulateLumpSum (amount : ℚ) (series : List PricePoint) :
    Except SimError (List TrajPoint × ℚ) :=
  if amount ≤ 0 then .error .invalidInvestment
  else
    match series with
    | [] => .error .insufficientData
    | first :: _ =>
      let shares := amount / first.close
      .ok (series.map (fun p => ⟨p.date, shares * p.close, amount⟩), amount)

/-! ### Periodic Contribution (DCA) simulator -/

/-- Running state of the DCA walk: shares held, capital invested so far,
and the month of the last purchase (`none` before the first purchase). -/
structure DcaState where
  shares : ℚ
  invested : ℚ
  lastMonth : Option Nat
deriving DecidableEq, Repr

/-- Initial DCA state: nothing bought yet. -/
def dcaInit : DcaState := ⟨0, 0, none⟩

/-- Modelled from the spec: one step of the DCA walk.  On a date belonging
to a calendar month not yet purchased into, buy `amount / close` further
shares and add `amount` to the invested capital. -/
def dcaStep (amount : ℚ) (st : DcaState) (p : PricePoint) : DcaState :=
  if st.lastMonth = some (monthIdx p.date) then st
  else ⟨st.shares + amount / p.close, st.invested + amount, some (monthIdx p.date)⟩

/-- Modelled from the spec: the DCA walk over the price series, recording
on each date the value of the shares held and the cumulative invested
capital after processing the purchases up to and including that date. -/
def dcaWalk (amount : ℚ) (st : DcaState) :
    List PricePoint → List TrajPoint × DcaState
  | [] => ([], st)
  | p :: ps =>
    let st' := dcaStep amount st p
    let r := dcaWalk amount st' ps
    (⟨p.date, st'.shares * p.close, st'.invested⟩ :: r.1, r.2)

/-- Modelled from the spec: the Periodic Contribution (DCA) strategy
simulator of the backend, absent from the checked-in sources.  Fails with
`invalidInvestment` when the per-period amount is not positive; the first
purchase occurs on the first date of the series, and a further purchase
occurs on the first trading day of each new calendar month. -/
def simulateDCA (amount : ℚ) (series : List PricePoint) :
    Except SimError (List TrajPoint × ℚ) :=
  if amount ≤ 0 then .error .invalidInvestment
  else
    match series with
    | [] => .error .insufficientData
    | _ :: _ =>
      let r := dcaWalk amount dcaInit series
      .ok (r.1, r.2.invested)

/-- The number of purchases the DCA walk performs over a list of month
numbers, given the month of the last purchase so far. -/
def purchaseCount (lm : Option Nat) : List Nat → Nat
  | [] => 0
  | m :: ms => if lm = some m then purchaseCount lm ms else purchaseCount (some m) ms + 1

/-- The month numbers of a price series. -/
def monthsOf (series : List PricePoint) : List Nat :=
  series.map fun p => monthIdx p.date

/-- The count of distinct calendar months touched by a price series. -/
def distinctMonthCount (series : List PricePoint) : Nat :=
  (monthsOf series).toFinset.card

/-! ### Metrics library -/

/-- Modelled from the spec: running-peak drawdowns.  `ddWalk peak values`
returns, for each value, `(value - peak') / peak'` where `peak'` is the
running maximum of `peak` and the values seen so far. -/
def ddWalk (peak : ℚ) : List ℚ → List ℚ
  | [] => []
  | v :: vs => ((v - max peak v) / max peak v) :: ddWalk (max peak v) vs

/-- Minimum of a list of rationals (`0` for the empty list). -/
def listMin : List ℚ → ℚ
  | [] => 0
  | d :: ds => ds.foldl min d

/-- Modelled from the spec: `max_drawdown` of the backend metrics library,
absent from the checked-in sources.  The running peak is the maximum of
`values[0..i]`, `drawdown[i] = (values[i] - peak[i]) / peak[i]`, and the
result is the minimum drawdown across all indices. -/
def maxDrawdown (values : List ℚ) : ℚ :=
  match values with
  | [] => 0
  | v :: _ => listMin (ddWalk v values)

/-- Mean of a list of rationals (`0` for the empty list, since `x / 0 = 0`). -/
def mean (l : List ℚ) : ℚ := l.sum / l.length

/-- Modelled from the spec: sample variance with the `n - 1` denominator,
`0` when fewer than two observations exist. -/
def sampleVar (l : List ℚ) : ℚ :=
  if l.length < 2 then 0
  else (l.map (fun r => (r - mean l) ^ 2)).sum / ((l.length - 1 : Nat) : ℚ)

/-- Modelled from the spec: annualized volatility
`stdev(daily_returns) * sqrt 252` of the backend metrics library, absent
from the checked-in sources (fractional scale, as fed into Sharpe). -/
noncomputable def volatility (l : List ℚ) : ℝ :=
  Real.sqrt (sampleVar l) * Real.sqrt 252

/-- Modelled from the spec: the Sharpe ratio
`(mean(daily_returns) * 252 - risk_free_rate) / volatility` of the backend
metrics library, absent from the checked-in sources; returns `0` when the
volatility is `0` so that no division by zero is performed. -/
noncomputable def sharpe (l : List ℚ) (rf : ℝ) : ℝ :=
  if volatility l = 0 then 0
  else ((mean l : ℝ) * 252 - rf) / volatility l

/-! ### Backtest results and orchestration -/

/-- `total_return` from final value and invested capital, in percent. -/
def totalReturn (finalV invested : ℚ) : ℚ :=
  (finalV - invested) / invested * 100

/-- Modelled from the spec: the per-instrument output record of a
backtest.  The annualized volatility and the Sharpe ratio are irrational
in general; the record stores the numeric values reported by the metrics
layer. -/
structure BacktestResult where
  symbol : String
  total_return : ℚ
  max_drawdown : ℚ
  volatilityPct : ℚ
  sharpeVal : ℚ
  final_value : ℚ
  total_invested : ℚ
  portfolio_history : List TrajPoint
deriving DecidableEq, Repr

/-- An investment plan: lump sum or monthly periodic contribution. -/
inductive Plan where
  | lumpSum (amount : ℚ)
  | dca (amount : ℚ)
deriving DecidableEq, Repr

/-- Dispatch to the simulator selected by the plan. -/
def simulate : Plan → List PricePoint → Except SimError (List TrajPoint × ℚ)
  | .lumpSum a, series => simulateLumpSum a series
  | .dca a, series => simulateDCA a series

/-- Modelled from the spec: assembly of a `BacktestResult` from a
simulation outcome.  `total_return` is computed from the stored
`final_value` and `total_invested`; `vol` and `sh` are the reported
volatility and Sharpe values delivered by the metrics layer. -/
def mkResult (symbol : String) (traj : List TrajPoint) (invested vol sh : ℚ) :
    BacktestResult :=
  { symbol := symbol
    total_return := totalReturn (finalValue traj) invested
    max_drawdown := maxDrawdown (traj.map (·.value))
    volatilityPct := vol
    sharpeVal := sh
    final_value := finalValue traj
    total_invested := invested
    portfolio_history := traj }

/-- Modelled from the spec: run one instrument of a backtest request and
assemble its result record. -/
def runInstrument (plan : Plan) (symbol : String) (series : List PricePoint)
    (vol sh : ℚ) : Except SimError BacktestResult :=
  match simulate plan series with
  | .error e => .error e
  | .ok (traj, invested) => .ok (mkResult symbol traj invested vol sh)

/-! ### Comparison summary -/

/-- First element of the list attaining the maximal value of `f`
(`none` for the empty list).  Later elements replace the current best only
when strictly greater, so ties go to the first occurrence. -/
def argmaxBy {α β : Type*} [LinearOrder β] (f : α → β) : List α → Option α
  | [] => none
  | x :: xs =>
    match argmaxBy f xs with
    | none => some x
    | some b => if f b ≤ f x then some x else some b

/-- First element of the list attaining the minimal value of `f`
(`none` for the empty list), ties to the first occurrence. -/
def argminBy {α β : Type*} [LinearOrder β] (f : α → β) : List α → Option α
  | [] => none
  | x :: xs =>
    match argminBy f xs with
    | none => some x
    | some b => if f x ≤ f b then some x else some b

/-- Modelled from the spec: the cross-instrument comparison summary —
best performer by total return, its return, the lowest-volatility result
and the best-Sharpe result. -/
structure ComparisonSummary where
  best_performer : BacktestResult
  highest_return : ℚ
  lowest_risk : BacktestResult
  best_sharpe : BacktestResult
deriving DecidableEq, Repr

/-- Modelled from the spec: derive the comparison summary from the
successful results; `none` when there are no results. -/
def comparisonSummary (results : List BacktestResult) : Option ComparisonSummary :=
  match argmaxBy (·.total_return) results, argminBy (·.volatilityPct) results,
      argmaxBy (·.sharpeVal) results with
  | some bp, some lr, some bs => some ⟨bp, bp.total_return, lr, bs⟩
  | _, _, _ => none

/-! ### Frontend: request validation (`frontend/js/app.js`) -/

/-- The parameters assembled by the frontend form.  Dates are modelled as
timestamps wrapped in `Option`: `none` stands for the empty date field
(falsy in the JavaScript check). -/
structure BacktestParams where
  stocks : List String
  start_date : Option Int
  end_date : Option Int
  strategy : String
  amount : ℚ
  frequency : String
deriving DecidableEq, Repr

/-- The distinct rejection causes of `validateParams`, in the vocabulary
of the spec's error taxonomy. -/
inductive ValidationError where
  | noStocks
  | missingDates
  | invalidRange
  | invalidInvestment
deriving DecidableEq, Repr

/-- Embeds `validateParams` of `frontend/js/app.js`: reject when no stock
is selected, when a date field is empty, when `startDate >= endDate`, or
when the amount is not positive — in that order. -/
def validateParams (p : BacktestParams) : Option ValidationError :=
  if p.stocks.length = 0 then some .noStocks
  else
    match p.start_date, p.end_date with
    | some s, some e =>
      if e ≤ s then some .invalidRange
      else if p.amount ≤ 0 then some .invalidInvestment
      else none
    | _, _ => some .missingDates

/-- Outcome of the frontend `runBacktest` flow: either the request is
rejected by validation (no API call is made) or it is submitted. -/
inductive BacktestAction where
  | rejected (e : ValidationError)
  | submitted (p : BacktestParams)
deriving DecidableEq, Repr

/-- Embeds the `runBacktest` flow of `frontend/js/app.js`: if validation
fails the function returns before issuing the API call, so no simulation
is attempted; otherwise the request is submitted. -/
def runBacktestFlow (p : BacktestParams) : BacktestAction :=
  match validateParams p with
  | some e => .rejected e
  | none => .submitted p

/-! ### Frontend: selected-stock state (`frontend/js/app.js`) -/

/-- A selectable stock, as held in `state.selectedStocks`. -/
structure Stock where
  symbol : String
  name : String
deriving DecidableEq, Repr

/-- The two rejection causes of `addStock`. -/
inductive AddStockError where
  | duplicate
  | limitReached
deriving DecidableEq, Repr

/-- Embeds `addStock` of `frontend/js/app.js`: reject (leaving the state
unchanged and showing an error) when the symbol is already selected or
when ten stocks are already selected; otherwise push the stock. -/
def addStock (st : List Stock) (s : Stock) : List Stock × Option AddStockError :=
  if st.any (fun x => x.symbol == s.symbol) then (st, some .duplicate)
  else if 10 ≤ st.length then (st, some .limitReached)
  else (st ++ [s], none)

/-- Embeds `removeStock` of `frontend/js/app.js`: keep exactly the entries
whose symbol differs. -/
def removeStock (st : List Stock) (symbol : String) : List Stock :=
  st.filter (fun x => x.symbol != symbol)

/-- A user operation on the selected-stock state. -/
inductive StockOp where
  | add (s : Stock)
  | remove (symbol : String)
deriving Repr

/-- Apply one operation to the selected-stock state. -/
def applyOp (st : List Stock) : StockOp → List Stock
  | .add s => (addStock st s).1
  | .remove sym => removeStock st sym

/-- Apply a sequence of operations starting from the empty selection. -/
def applyOps (ops : List StockOp) : List Stock :=
  ops.foldl applyOp []

/-- The selected-stock invariant: pairwise distinct symbols, at most ten
entries. -/
def SelectionInv (st : List Stock) : Prop :=
  st.Pairwise (fun a b => a.symbol ≠ b.symbol) ∧ st.length ≤ 10

/-! ### Frontend: stock search (`frontend/js/api.js`) -/

/-- What `searchStocks` does with a query: resolve locally with a result
list (no HTTP request), or issue an HTTP GET to a URL. -/
inductive SearchOutcome where
  | resolved (results : List Stock)
  | httpGet (url : String)
deriving DecidableEq, Repr

/-- The API base URL of `frontend/js/api.js`. -/
def BASE_URL : String := "http://localhost:8000/api"

/-- The JavaScript `String.prototype.trim`, modelled over the ASCII
whitespace characters recognized by `Char.isWhitespace`. -/
def jsTrim (s : String) : String :=
  ⟨((s.data.dropWhile Char.isWhitespace).reverse.dropWhile Char.isWhitespace).reverse⟩

/-- Is `c` left untouched by `encodeURIComponent`?  Alphanumerics and the
marks `- _ . ! ~ * ' ( )`. -/
def isUnreservedURIChar (c : Char) : Bool :=
  c.isAlphanum || c == '-' || c == '_' || c == '.' || c == '!' || c == '~' ||
    c == '*' || c == Char.ofNat 39 || c == '(' || c == ')'

/-- Upper-case hexadecimal digit of `n < 16`. -/
def hexDigit (n : Nat) : Char :=
  if n < 10 then Char.ofNat (48 + n) else Char.ofNat (55 + n)

/-- The UTF-8 bytes of a code point. -/
def utf8BytesOfChar (c : Char) : List Nat :=
  let n := c.toNat
  if n < 128 then [n]
  else if n < 2048 then [192 + n / 64, 128 + n % 64]
  else if n < 65536 then [224 + n / 4096, 128 + (n / 64) % 64, 128 + n % 64]
  else [240 + n / 262144, 128 + (n / 4096) % 64, 128 + (n / 64) % 64, 128 + n % 64]

/-- Percent-encoding of one byte. -/
def percentEncodeByte (b : Nat) : List Char :=
  ['%', hexDigit (b / 16), hexDigit (b % 16)]

/-- The JavaScript `encodeURIComponent`: unreserved characters stand for
themselves, every other code point is UTF-8 encoded and percent-escaped. -/
def encodeURIComponent (s : String) : String :=
  ⟨s.data.flatMap fun c =>
    if isUnreservedURIChar c then [c]
    else (utf8BytesOfChar c).flatMap percentEncodeByte⟩

/-- Embeds `searchStocks` of `frontend/js/api.js`: an empty or
whitespace-only query resolves to the empty array without any HTTP
request; otherwise the trimmed, URL-encoded query is sent to the search
endpoint. -/
def searchStocks (query : String) : SearchOutcome :=
  if query.isEmpty || (jsTrim query).length == 0 then .resolved []
  else .httpGet (BASE_URL ++ "/stocks/search?q=" ++ encodeURIComponent (jsTrim query))

/-! ## Theorems -/

/-- C7: a backtest request whose investment amount is not positive is
rejected by validation with the invalid-investment error, under either
strategy, and the flow never submits the request, so no simulation is
attempted. -/
theorem validateParams_rejects_nonpositive_amount (p : BacktestParams) (s e : Int)
    (hstocks : p.stocks ≠ [])
    (hs : p.start_date = some s) (he : p.end_date = some e)
    (hrange : s < e) (hamt : p.amount ≤ 0) :
    validateParams p = some .invalidInvestment ∧
      runBacktestFlow p = .rejected .invalidInvestment := by
  have hlen : ¬ p.stocks.length = 0 := by simpa using hstocks
  have h1 : validateParams p = some .invalidInvestment := by
    unfold validateParams
    rw [hs, he]
    simp [hlen, hamt, not_le.mpr hrange]
  refine ⟨h1, ?_⟩
  unfold runBacktestFlow
  rw [h1]

/-- Witness for C7: scenario 4 of the spec, `amount = -500`. -/
theorem validateParams_rejects_nonpositive_amount_witness :
    validateParams ⟨["AAPL"], some 0, some 86400, "lump_sum", -500, "monthly"⟩ =
        some .invalidInvestment ∧
      runBacktestFlow ⟨["AAPL"], some 0, some 86400, "lump_sum", -500, "monthly"⟩ =
        .rejected .invalidInvestment :=
  validateParams_rejects_nonpositive_amount _ 0 86400 (by simp) rfl rfl
    (by norm_num) (by norm_num)

/-- C8: with a stock selected and both dates present, a request with
`start_date ≥ end_date` is rejected with the invalid-range error before
any simulation runs, and a request with `start_date < end_date` passes the
range check. -/
theorem validateParams_range_check (p : BacktestParams) (s e : Int)
    (hstocks : p.stocks ≠ [])
    (hs : p.start_date = some s) (he : p.end_date = some e) :
    (e ≤ s → validateParams p = some .invalidRange ∧
      runBacktestFlow p = .rejected .invalidRange) ∧
    (s < e → validateParams p ≠ some .invalidRange) := by
  have hlen : ¬ p.stocks.length = 0 := by simpa using hstocks
  constructor
  · intro hle
    have h1 : validateParams p = some .invalidRange := by
      unfold validateParams
      rw [hs, he]
      simp [hlen, hle]
    refine ⟨h1, ?_⟩
    unfold runBacktestFlow
    rw [h1]
  · intro hlt
    unfold validateParams
    rw [hs, he]
    simp only [if_neg hlen, if_neg (not_le.mpr hlt)]
    split <;> simp

/-- Witness for C8: scenario 5 of the spec, `start_date == end_date`. -/
theorem validateParams_range_check_witness :
    ((86400 : Int) ≤ 86400 →
      validateParams ⟨["AAPL"], some 86400, some 86400, "dca", 100, "monthly"⟩ =
          some .invalidRange ∧
        runBacktestFlow ⟨["AAPL"], some 86400, some 86400, "dca", 100, "monthly"⟩ =
          .rejected .invalidRange) ∧
    ((86400 : Int) < 86400 →
      validateParams ⟨["AAPL"], some 86400, some 86400, "dca", 100, "monthly"⟩ ≠
        some .invalidRange) :=
  validateParams_range_check _ 86400 86400 (by simp) rfl rfl

/-- `addStock` rejects a symbol that is already selected. -/
theorem addStock_duplicate (st : List Stock) (s : Stock)
    (h : ∃ x ∈ st, x.symbol = s.symbol) :
    addStock st s = (st, some .duplicate) := by
  have hany : st.any (fun x => x.symbol == s.symbol) = true := by
    obtain ⟨x, hx, hsym⟩ := h
    exact List.any_eq_true.mpr ⟨x, hx, by simpa using hsym⟩
  unfold addStock
  rw [hany]
  rfl

/-- `addStock` rejects a fresh symbol once ten stocks are selected. -/
theorem addStock_limit (st : List Stock) (s : Stock)
    (hfresh : ∀ x ∈ st, x.symbol ≠ s.symbol) (hfull : 10 ≤ st.length) :
    addStock st s = (st, some .limitReached) := by
  have hany : st.any (fun x => x.symbol == s.symbol) = false := by
    apply List.any_eq_false.mpr
    intro x hx
    simpa using hfresh x hx
  unfold addStock
  rw [hany]
  simp [hfull]

/-- One operation preserves the selected-stock invariant. -/
theorem selectionInv_applyOp (st : List Stock) (op : StockOp)
    (h : SelectionInv st) : SelectionInv (applyOp st op) := by
  obtain ⟨hpw, hlen⟩ := h
  cases op with
  | add s =>
    show SelectionInv (addStock st s).1
    unfold addStock
    by_cases hdup : st.any (fun x => x.symbol == s.symbol) = true
    · rw [hdup]
      exact ⟨hpw, hlen⟩
    · rw [Bool.not_eq_true] at hdup
      rw [hdup]
      by_cases hfull : 10 ≤ st.length
      · simp only [Bool.false_eq_true, if_false, if_pos hfull]
        exact ⟨hpw, hlen⟩
      · simp only [Bool.false_eq_true, if_false, if_neg hfull]
        constructor
        · rw [List.pairwise_append]
          refine ⟨hpw, List.pairwise_singleton _ _, ?_⟩
          intro a ha b hb
          rw [List.mem_singleton] at hb
          subst hb
          have := List.any_eq_false.mp hdup a ha
          simpa using this
        · rw [List.length_append]
          simp only [List.length_singleton]
          omega
  | remove sym =>
    show SelectionInv (removeStock st sym)
    unfold removeStock
    exact ⟨hpw.sublist (List.filter_sublist st),
      le_trans (List.length_filter_le _ st) hlen⟩

/-- Folding any operation sequence preserves the invariant. -/
theorem selectionInv_foldl (ops : List StockOp) :
    ∀ st, SelectionInv st → SelectionInv (ops.foldl applyOp st) := by
  induction ops with
  | nil => intro st h; exact h
  | cons op ops ih =>
    intro st h
    exact ih _ (selectionInv_applyOp st op h)

/-- C9: after every sequence of add/remove operations starting from the
empty selection, the selected stocks have pairwise distinct symbols and
number at most ten; `addStock` leaves the state unchanged and reports an
error when the symbol is already present or when ten stocks are already
selected. -/
theorem selectedStocks_invariant (ops : List StockOp) :
    SelectionInv (applyOps ops) ∧
    (∀ st s, (∃ x ∈ st, x.symbol = s.symbol) →
      addStock st s = (st, some .duplicate)) ∧
    (∀ st s, (∀ x ∈ st, x.symbol ≠ s.symbol) → 10 ≤ st.length →
      addStock st s = (st, some .limitReached)) := by
  refine ⟨?_, addStock_duplicate, addStock_limit⟩
  have h0 : SelectionInv [] := ⟨List.Pairwise.nil, by simp⟩
  exact selectionInv_foldl ops [] h0

/-- Witness for C9: adding the same symbol twice leaves a one-element
state and reports the duplicate error. -/
theorem selectedStocks_invariant_witness :
    SelectionInv (applyOps [.add ⟨"AAPL", "Apple"⟩, .add ⟨"AAPL", "Apple"⟩]) ∧
      addStock [⟨"AAPL", "Apple"⟩] ⟨"AAPL", "Apple"⟩ =
        ([⟨"AAPL", "Apple"⟩], some .duplicate) :=
  ⟨(selectedStocks_invariant [.add ⟨"AAPL", "Apple"⟩, .add ⟨"AAPL", "Apple"⟩]).1,
    (selectedStocks_invariant [.add ⟨"AAPL", "Apple"⟩, .add ⟨"AAPL", "Apple"⟩]).2.1
      [⟨"AAPL", "Apple"⟩] ⟨"AAPL", "Apple"⟩ ⟨⟨"AAPL", "Apple"⟩, by simp, rfl⟩⟩

/-- C10: an empty or whitespace-only query resolves to the empty array
without issuing any HTTP request; any other query is trimmed and
URL-encoded before being sent to the search endpoint. -/
theorem searchStocks_spec (q : String) :
    ((q.data = [] ∨ ∀ c ∈ q.data, c.isWhitespace) →
      searchStocks q = .resolved []) ∧
    ((∃ c ∈ q.data, ¬ c.isWhitespace) →
      searchStocks q = .httpGet
        (BASE_URL ++ "/stocks/search?q=" ++ encodeURIComponent (jsTrim q))) := by
  constructor
  · intro h
    have htrim : jsTrim q = "" := by
      unfold jsTrim
      rcases h with h | h
      · rw [h]
        rfl
      · rw [List.dropWhile_eq_nil_iff.mpr h]
        rfl
    unfold searchStocks
    rw [htrim]
    simp
  · rintro ⟨c, hc, hcw⟩
    have h1 : q.data.dropWhile Char.isWhitespace ≠ [] := by
      rw [Ne, List.dropWhile_eq_nil_iff]
      push_neg
      exact ⟨c, hc, by simpa using hcw⟩
    have hlen1 : 0 < (q.data.dropWhile Char.isWhitespace).length :=
      List.length_pos.mpr h1
    have hhead : ¬ ((q.data.dropWhile Char.isWhitespace).get ⟨0, hlen1⟩).isWhitespace :=
      List.dropWhile_get_zero_not _ _ hlen1
    have hmem : (q.data.dropWhile Char.isWhitespace).get ⟨0, hlen1⟩ ∈
        q.data.dropWhile Char.isWhitespace := List.get_mem _ _ _
    have h2 : (q.data.dropWhile Char.isWhitespace).reverse.dropWhile
        Char.isWhitespace ≠ [] := by
      rw [Ne, List.dropWhile_eq_nil_iff]
      push_neg
      exact ⟨_, List.mem_reverse.mpr hmem, by simpa using hhead⟩
    have htrim : jsTrim q ≠ "" := by
      unfold jsTrim
      intro hEq
      have hdata : ((q.data.dropWhile Char.isWhitespace).reverse.dropWhile
          Char.isWhitespace).reverse = [] := congrArg String.data hEq
      rw [List.reverse_eq_nil_iff] at hdata
      exact h2 hdata
    have hq : q.isEmpty = false := by
      rw [← Bool.not_eq_true, String.isEmpty_iff]
      intro h
      subst h
      simp at hc
    have hlenq : ((jsTrim q).length == 0) = false := by
      rw [beq_eq_false_iff_ne]
      intro h0
      apply htrim
      apply String.ext
      exact List.length_eq_zero.mp h0
    unfold searchStocks
    rw [hq, hlenq]
    rfl

/-- Witness for C10: a whitespace query resolves locally; a padded query
is trimmed and URL-encoded into the request URL. -/
theorem searchStocks_spec_witness :
    searchStocks "   " = .resolved [] ∧
      searchStocks " AAPL " = .httpGet
        (BASE_URL ++ "/stocks/search?q=" ++ encodeURIComponent (jsTrim " AAPL ")) :=
  ⟨(searchStocks_spec "   ").1 (Or.inr (by decide)),
    (searchStocks_spec " AAPL ").2 ⟨'A', by decide, by decide⟩⟩

/-- C1: a Lump Sum simulation over a non-empty series with a positive
amount succeeds; it purchases `amount / close[0]` shares, the portfolio
value on every date is `shares * close`, the invested capital recorded on
every date is the constant `amount`, the reported total invested is
`amount`, and the final value is `shares * close[last]`. -/
theorem lumpSum_spec (amount : ℚ) (first : PricePoint) (rest : List PricePoint)
    (hpos : 0 < amount) :
    ∃ traj : List TrajPoint,
      simulateLumpSum amount (first :: rest) = .ok (traj, amount) ∧
      traj.length = (first :: rest).length ∧
      (∀ i, ∀ hi : i < (first :: rest).length,
        traj[i]? = some ⟨((first :: rest)[i]).date,
          amount / first.close * ((first :: rest)[i]).close, amount⟩) ∧
      finalValue traj =
        amount / first.close *
          ((first :: rest).getLast (List.cons_ne_nil first rest)).close := by
  refine ⟨(first :: rest).map
    (fun p => ⟨p.date, amount / first.close * p.close, amount⟩), ?_, ?_, ?_, ?_⟩
  · unfold simulateLumpSum
    rw [if_neg (not_le.mpr hpos)]
  · rw [List.length_map]
  · intro i hi
    rw [List.getElem?_map, List.getElem?_eq_getElem hi]
    rfl
  · unfold finalValue
    rw [List.getLast?_map,
      List.getLast?_eq_getLast (first :: rest) (List.cons_ne_nil first rest)]
    rfl

/-- Witness for C1: scenario 1 of the spec — amount 10000 over closes
`[100, 110, 90, 120]`. -/
theorem lumpSum_spec_witness :
    (0 : ℚ) < 10000 ∧
    ∃ traj : List TrajPoint,
      simulateLumpSum 10000
          (⟨⟨2020, 1, 1⟩, 100⟩ ::
            [⟨⟨2020, 1, 2⟩, 110⟩, ⟨⟨2020, 1, 3⟩, 90⟩, ⟨⟨2020, 1, 6⟩, 120⟩]) =
        .ok (traj, 10000) ∧
      traj.length =
        ((⟨⟨2020, 1, 1⟩, 100⟩ : PricePoint) ::
          [⟨⟨2020, 1, 2⟩, 110⟩, ⟨⟨2020, 1, 3⟩, 90⟩, ⟨⟨2020, 1, 6⟩, 120⟩]).length ∧
      (∀ i, ∀ hi : i < ((⟨⟨2020, 1, 1⟩, 100⟩ : PricePoint) ::
          [⟨⟨2020, 1, 2⟩, 110⟩, ⟨⟨2020, 1, 3⟩, 90⟩, ⟨⟨2020, 1, 6⟩, 120⟩]).length,
        traj[i]? = some ⟨(((⟨⟨2020, 1, 1⟩, 100⟩ : PricePoint) ::
            [⟨⟨2020, 1, 2⟩, 110⟩, ⟨⟨2020, 1, 3⟩, 90⟩, ⟨⟨2020, 1, 6⟩, 120⟩])[i]).date,
          10000 / (100 : ℚ) * (((⟨⟨2020, 1, 1⟩, 100⟩ : PricePoint) ::
            [⟨⟨2020, 1, 2⟩, 110⟩, ⟨⟨2020, 1, 3⟩, 90⟩,
              ⟨⟨2020, 1, 6⟩, 120⟩])[i]).close, 10000⟩) ∧
      finalValue traj =
        10000 / (100 : ℚ) *
          (((⟨⟨2020, 1, 1⟩, 100⟩ : PricePoint) ::
            [⟨⟨2020, 1, 2⟩, 110⟩, ⟨⟨2020, 1, 3⟩, 90⟩,
              ⟨⟨2020, 1, 6⟩, 120⟩]).getLast
                (List.cons_ne_nil _ _)).close :=
  ⟨by norm_num,
    lumpSum_spec 10000 ⟨⟨2020, 1, 1⟩, 100⟩
      [⟨⟨2020, 1, 2⟩, 110⟩, ⟨⟨2020, 1, 3⟩, 90⟩, ⟨⟨2020, 1, 6⟩, 120⟩]
      (by norm_num)⟩

/-- C5: every `BacktestResult` produced by a backtest run stores a
`total_return` that equals the value recomputed from its stored
`final_value` and `total_invested` — exactly, since the model uses
rational arithmetic. -/
theorem totalReturn_roundTrip (plan : Plan) (symbol : String)
    (series : List PricePoint) (vol sh : ℚ) (r : BacktestResult)
    (h : runInstrument plan symbol series vol sh = .ok r) :
    r.total_return = totalReturn r.final_value r.total_invested := by
  unfold runInstrument at h
  cases hs : simulate plan series with
  | error e =>
    rw [hs] at h
    cases h
  | ok pr =>
    rw [hs] at h
    obtain ⟨traj, invested⟩ := pr
    cases h
    rfl

/-- Witness for C5: a concrete lump-sum run whose stored and recomputed
total return are both 10%. -/
theorem totalReturn_roundTrip_witness :
    runInstrument (.lumpSum 10000) "SPY"
        [⟨⟨2020, 1, 1⟩, 100⟩, ⟨⟨2020, 1, 2⟩, 110⟩] 5 1 =
      .ok ⟨"SPY", 10, 0, 5, 1, 11000, 10000,
        [⟨⟨2020, 1, 1⟩, 10000, 10000⟩, ⟨⟨2020, 1, 2⟩, 11000, 10000⟩]⟩ ∧
    (⟨"SPY", 10, 0, 5, 1, 11000, 10000,
        [⟨⟨2020, 1, 1⟩, 10000, 10000⟩, ⟨⟨2020, 1, 2⟩, 11000, 10000⟩]⟩ :
        BacktestResult).total_return =
      totalReturn
        (⟨"SPY", 10, 0, 5, 1, 11000, 10000,
          [⟨⟨2020, 1, 1⟩, 10000, 10000⟩, ⟨⟨2020, 1, 2⟩, 11000, 10000⟩]⟩ :
          BacktestResult).final_value
        (⟨"SPY", 10, 0, 5, 1, 11000, 10000,
          [⟨⟨2020, 1, 1⟩, 10000, 10000⟩, ⟨⟨2020, 1, 2⟩, 11000, 10000⟩]⟩ :
          BacktestResult).total_invested := by
  have h : runInstrument (.lumpSum 10000) "SPY"
      [⟨⟨2020, 1, 1⟩, 100⟩, ⟨⟨2020, 1, 2⟩, 110⟩] 5 1 =
      .ok ⟨"SPY", 10, 0, 5, 1, 11000, 10000,
        [⟨⟨2020, 1, 1⟩, 10000, 10000⟩, ⟨⟨2020, 1, 2⟩, 11000, 10000⟩]⟩ := by
    simp [runInstrument, simulate, simulateLumpSum, mkResult, finalValue,
      totalReturn, maxDrawdown, listMin, max_def, min_def]
    norm_num [ddWalk, listMin, max_def, min_def]
  exact ⟨h, totalReturn_roundTrip (.lumpSum 10000) "SPY"
    [⟨⟨2020, 1, 1⟩, 100⟩, ⟨⟨2020, 1, 2⟩, 110⟩] 5 1 _ h⟩

/-- Unfolding equation of `argmaxBy` on a cons cell. -/
theorem argmaxBy_cons {α β : Type*} [LinearOrder β] (f : α → β) (x : α)
    (xs : List α) :
    argmaxBy f (x :: xs) =
      match argmaxBy f xs with
      | none => some x
      | some b => if f b ≤ f x then some x else some b := rfl

/-- `argmaxBy` returns the first element attaining the maximum of `f`. -/
theorem argmaxBy_spec {α β : Type*} [LinearOrder β] (f : α → β) :
    ∀ l : List α, l ≠ [] →
      ∃ i, ∃ hi : i < l.length, argmaxBy f l = some l[i] ∧
        (∀ j, ∀ hj : j < l.length, f l[j] ≤ f l[i]) ∧
        (∀ j, ∀ hj : j < l.length, j < i → f l[j] < f l[i]) := by
  intro l
  induction l with
  | nil => intro h; exact absurd rfl h
  | cons x xs ih =>
    intro _
    by_cases hn : xs = []
    · subst hn
      refine ⟨0, by simp, ?_, ?_, ?_⟩
      · rfl
      · intro j hj
        have hj0 : j = 0 := by simpa using hj
        subst hj0
        exact le_refl _
      · intro j hj hlt
        omega
    · obtain ⟨i, hi, hEq, hMax, hFirst⟩ := ih hn
      by_cases hle : f xs[i] ≤ f x
      · refine ⟨0, by simp, ?_, ?_, ?_⟩
        · have hcons : argmaxBy f (x :: xs) =
              if f xs[i] ≤ f x then some x else some xs[i] := by
            rw [argmaxBy_cons, hEq]
          rw [hcons, if_pos hle]
          rfl
        · intro j hj
          cases j with
          | zero => exact le_refl _
          | succ k =>
            have hk : k < xs.length := by simpa using hj
            have : f ((x :: xs)[k + 1]) = f xs[k] := by
              rw [List.getElem_cons_succ]
            rw [this, List.getElem_cons_zero]
            exact le_trans (hMax k hk) hle
        · intro j hj hlt
          omega
      · push_neg at hle
        refine ⟨i + 1, by simpa using Nat.succ_lt_succ hi, ?_, ?_, ?_⟩
        · have hcons : argmaxBy f (x :: xs) =
              if f xs[i] ≤ f x then some x else some xs[i] := by
            rw [argmaxBy_cons, hEq]
          rw [hcons, if_neg (not_le.mpr hle), List.getElem_cons_succ]
        · intro j hj
          rw [List.getElem_cons_succ]
          cases j with
          | zero =>
            rw [List.getElem_cons_zero]
            exact le_of_lt hle
          | succ k =>
            rw [List.getElem_cons_succ]
            exact hMax k (by simpa using hj)
        · intro j hj hlt
          rw [List.getElem_cons_succ]
          cases j with
          | zero =>
            rw [List.getElem_cons_zero]
            exact hle
          | succ k =>
            rw [List.getElem_cons_succ]
            exact hFirst k (by simpa using hj) (by omega)

/-- Unfolding equation of `argminBy` on a cons cell. -/
theorem argminBy_cons {α β : Type*} [LinearOrder β] (f : α → β) (x : α)
    (xs : List α) :
    argminBy f (x :: xs) =
      match argminBy f xs with
      | none => some x
      | some b => if f x ≤ f b then some x else some b := rfl

/-- `argminBy` returns the first element attaining the minimum of `f`. -/
theorem argminBy_spec {α β : Type*} [LinearOrder β] (f : α → β) :
    ∀ l : List α, l ≠ [] →
      ∃ i, ∃ hi : i < l.length, argminBy f l = some l[i] ∧
        (∀ j, ∀ hj : j < l.length, f l[i] ≤ f l[j]) ∧
        (∀ j, ∀ hj : j < l.length, j < i → f l[i] < f l[j]) := by
  intro l
  induction l with
  | nil => intro h; exact absurd rfl h
  | cons x xs ih =>
    intro _
    by_cases hn : xs = []
    · subst hn
      refine ⟨0, by simp, ?_, ?_, ?_⟩
      · rfl
      · intro j hj
        have hj0 : j = 0 := by simpa using hj
        subst hj0
        exact le_refl _
      · intro j hj hlt
        omega
    · obtain ⟨i, hi, hEq, hMin, hFirst⟩ := ih hn
      by_cases hle : f x ≤ f xs[i]
      · refine ⟨0, by simp, ?_, ?_, ?_⟩
        · have hcons : argminBy f (x :: xs) =
              if f x ≤ f xs[i] then some x else some xs[i] := by
            rw [argminBy_cons, hEq]
          rw [hcons, if_pos hle]
          rfl
        · intro j hj
          rw [List.getElem_cons_zero]
          cases j with
          | zero => exact le_refl _
          | succ k =>
            have hk : k < xs.length := by simpa using hj
            rw [List.getElem_cons_succ]
            exact le_trans hle (hMin k hk)
        · intro j hj hlt
          omega
      · push_neg at hle
        refine ⟨i + 1, by simpa using Nat.succ_lt_succ hi, ?_, ?_, ?_⟩
        · have hcons : argminBy f (x :: xs) =
              if f x ≤ f xs[i] then some x else some xs[i] := by
            rw [argminBy_cons, hEq]
          rw [hcons, if_neg (not_le.mpr hle), List.getElem_cons_succ]
        · intro j hj
          rw [List.getElem_cons_succ]
          cases j with
          | zero =>
            rw [List.getElem_cons_zero]
            exact le_of_lt hle
          | succ k =>
            rw [List.getElem_cons_succ]
            exact hMin k (by simpa using hj)
        · intro j hj hlt
          rw [List.getElem_cons_succ]
          cases j with
          | zero =>
            rw [List.getElem_cons_zero]
            exact hle
          | succ k =>
            rw [List.getElem_cons_succ]
            exact hFirst k (by simpa using hj) (by omega)

/-- C6: over a non-empty list of results the comparison summary selects
the first result with maximal total return as best performer (whose
return is reported as the highest return), the first result with minimal
volatility as lowest risk, and the first result with maximal Sharpe value
as best Sharpe — ties broken by first occurrence in input order. -/
theorem comparisonSummary_spec (results : List BacktestResult)
    (hne : results ≠ []) :
    ∃ s, comparisonSummary results = some s ∧
      s.highest_return = s.best_performer.total_return ∧
      (∃ i, ∃ hi : i < results.length, s.best_performer = results[i] ∧
        (∀ j, ∀ hj : j < results.length,
          (results[j]).total_return ≤ (results[i]).total_return) ∧
        (∀ j, ∀ hj : j < results.length, j < i →
          (results[j]).total_return < (results[i]).total_return)) ∧
      (∃ i, ∃ hi : i < results.length, s.lowest_risk = results[i] ∧
        (∀ j, ∀ hj : j < results.length,
          (results[i]).volatilityPct ≤ (results[j]).volatilityPct) ∧
        (∀ j, ∀ hj : j < results.length, j < i →
          (results[i]).volatilityPct < (results[j]).volatilityPct)) ∧
      (∃ i, ∃ hi : i < results.length, s.best_sharpe = results[i] ∧
        (∀ j, ∀ hj : j < results.length,
          (results[j]).sharpeVal ≤ (results[i]).sharpeVal) ∧
        (∀ j, ∀ hj : j < results.length, j < i →
          (results[j]).sharpeVal < (results[i]).sharpeVal)) := by
  obtain ⟨i1, hi1, hEq1, hMax1, hFirst1⟩ :=
    argmaxBy_spec (·.total_return) results hne
  obtain ⟨i2, hi2, hEq2, hMin2, hFirst2⟩ :=
    argminBy_spec (·.volatilityPct) results hne
  obtain ⟨i3, hi3, hEq3, hMax3, hFirst3⟩ :=
    argmaxBy_spec (·.sharpeVal) results hne
  refine ⟨⟨results[i1], (results[i1]).total_return, results[i2], results[i3]⟩,
    ?_, rfl, ⟨i1, hi1, rfl, hMax1, hFirst1⟩, ⟨i2, hi2, rfl, hMin2, hFirst2⟩,
    ⟨i3, hi3, rfl, hMax3, hFirst3⟩⟩
  unfold comparisonSummary
  rw [hEq1, hEq2, hEq3]

/-- Concrete result records for the comparison scenario: total returns
20%, -5% and 35%; volatilities 5, 3, 4; Sharpe values 1, 2, 2 (a tie). -/
def cmpA : BacktestResult := ⟨"A", 20, 0, 5, 1, 0, 0, []⟩

/-- Second comparison record (see `cmpA`). -/
def cmpB : BacktestResult := ⟨"B", -5, 0, 3, 2, 0, 0, []⟩

/-- Third comparison record (see `cmpA`). -/
def cmpC : BacktestResult := ⟨"C", 35, 0, 4, 2, 0, 0, []⟩

/-- Witness for C6: scenario 6 of the spec — over total returns
`[20%, -5%, 35%]` the best performer is the third result and the highest
return is 35%; the Sharpe tie between the second and third results goes
to the second (first occurrence). -/
theorem comparisonSummary_spec_witness :
    ([cmpA, cmpB, cmpC] : List BacktestResult) ≠ [] ∧
    comparisonSummary [cmpA, cmpB, cmpC] = some ⟨cmpC, 35, cmpB, cmpB⟩ ∧
    (∃ s, comparisonSummary [cmpA, cmpB, cmpC] = some s ∧
      s.highest_return = s.best_performer.total_return ∧
      (∃ i, ∃ hi : i < [cmpA, cmpB, cmpC].length,
        s.best_performer = [cmpA, cmpB, cmpC][i] ∧
        (∀ j, ∀ hj : j < [cmpA, cmpB, cmpC].length,
          ([cmpA, cmpB, cmpC][j]).total_return ≤
            ([cmpA, cmpB, cmpC][i]).total_return) ∧
        (∀ j, ∀ hj : j < [cmpA, cmpB, cmpC].length, j < i →
          ([cmpA, cmpB, cmpC][j]).total_return <
            ([cmpA, cmpB, cmpC][i]).total_return)) ∧
      (∃ i, ∃ hi : i < [cmpA, cmpB, cmpC].length,
        s.lowest_risk = [cmpA, cmpB, cmpC][i] ∧
        (∀ j, ∀ hj : j < [cmpA, cmpB, cmpC].length,
          ([cmpA, cmpB, cmpC][i]).volatilityPct ≤
            ([cmpA, cmpB, cmpC][j]).volatilityPct) ∧
        (∀ j, ∀ hj : j < [cmpA, cmpB, cmpC].length, j < i →
          ([cmpA, cmpB, cmpC][i]).volatilityPct <
            ([cmpA, cmpB, cmpC][j]).volatilityPct)) ∧
      (∃ i, ∃ hi : i < [cmpA, cmpB, cmpC].length,
        s.best_sharpe = [cmpA, cmpB, cmpC][i] ∧
        (∀ j, ∀ hj : j < [cmpA, cmpB, cmpC].length,
          ([cmpA, cmpB, cmpC][j]).sharpeVal ≤
            ([cmpA, cmpB, cmpC][i]).sharpeVal) ∧
        (∀ j, ∀ hj : j < [cmpA, cmpB, cmpC].length, j < i →
          ([cmpA, cmpB, cmpC][j]).sharpeVal <
            ([cmpA, cmpB, cmpC][i]).sharpeVal))) :=
  ⟨by simp,
    by norm_num [comparisonSummary, argmaxBy, argminBy, cmpA, cmpB, cmpC],
    comparisonSummary_spec [cmpA, cmpB, cmpC] (by simp)⟩

/-- A min-fold is bounded by its initial value. -/
theorem foldl_min_le_init (l : List ℚ) : ∀ a : ℚ, l.foldl min a ≤ a := by
  induction l with
  | nil => intro a; exact le_refl a
  | cons x xs ih =>
    intro a
    exact le_trans (ih (min a x)) (min_le_left a x)

/-- A min-fold is bounded by every member of the list. -/
theorem foldl_min_le_mem {x : ℚ} (l : List ℚ) :
    ∀ a : ℚ, x ∈ l → l.foldl min a ≤ x := by
  induction l with
  | nil => intro a h; cases h
  | cons y ys ih =>
    intro a h
    rcases List.mem_cons.mp h with h | h
    · subst h
      exact le_trans (foldl_min_le_init ys (min a x)) (min_le_right a x)
    · exact ih (min a y) h

/-- A lower bound of the initial value and of all members bounds the
min-fold from below. -/
theorem le_foldl_min {c : ℚ} (l : List ℚ) :
    ∀ a : ℚ, c ≤ a → (∀ x ∈ l, c ≤ x) → c ≤ l.foldl min a := by
  induction l with
  | nil => intro a hca _; exact hca
  | cons x xs ih =>
    intro a hca h
    exact ih (min a x) (le_min hca (h x (List.mem_cons_self x xs)))
      fun y hy => h y (List.mem_cons_of_mem x hy)

/-- Every drawdown is nonpositive over positive values with a positive
starting peak. -/
theorem ddWalk_nonpos (l : List ℚ) :
    ∀ peak : ℚ, 0 < peak → (∀ v ∈ l, 0 < v) → ∀ d ∈ ddWalk peak l, d ≤ 0 := by
  induction l with
  | nil => intro peak _ _ d hd; cases hd
  | cons v vs ih =>
    intro peak hp hl d hd
    have hpk : 0 < max peak v := lt_of_lt_of_le hp (le_max_left peak v)
    rcases List.mem_cons.mp hd with hd | hd
    · subst hd
      exact div_nonpos_iff.mpr (Or.inr ⟨sub_nonpos.mpr (le_max_right peak v),
        le_of_lt hpk⟩)
    · exact ih (max peak v) hpk
        (fun u hu => hl u (List.mem_cons_of_mem v hu)) d hd

/-- Over a value chain that never decreases from the starting peak, every
drawdown is zero. -/
theorem ddWalk_zero_of_chain (l : List ℚ) :
    ∀ peak : ℚ, List.Chain (· ≤ ·) peak l → ∀ d ∈ ddWalk peak l, d = 0 := by
  induction l with
  | nil => intro peak _ d hd; cases hd
  | cons v vs ih =>
    intro peak hchain d hd
    obtain ⟨hpv, hchain'⟩ := List.chain_cons.mp hchain
    have hmax : max peak v = v := max_eq_right hpv
    rcases List.mem_cons.mp hd with hd | hd
    · subst hd
      rw [hmax, sub_self, zero_div]
    · rw [hmax] at hd
      exact ih v hchain' d hd

/-- If the values do decrease somewhere, some drawdown is negative. -/
theorem ddWalk_neg_of_not_chain (l : List ℚ) :
    ∀ peak : ℚ, 0 < peak → (∀ v ∈ l, 0 < v) →
      ¬ List.Chain (· ≤ ·) peak l → ∃ d ∈ ddWalk peak l, d < 0 := by
  induction l with
  | nil => intro peak _ _ h; exact absurd List.Chain.nil h
  | cons v vs ih =>
    intro peak hp hl h
    by_cases hpv : peak ≤ v
    · have hnc : ¬ List.Chain (· ≤ ·) v vs :=
        fun hc => h (List.chain_cons.mpr ⟨hpv, hc⟩)
      have hmax : max peak v = v := max_eq_right hpv
      obtain ⟨d, hd, hdneg⟩ := ih v (hl v (List.mem_cons_self v vs))
        (fun u hu => hl u (List.mem_cons_of_mem v hu)) hnc
      refine ⟨d, ?_, hdneg⟩
      rw [show ddWalk peak (v :: vs) =
        ((v - max peak v) / max peak v) :: ddWalk (max peak v) vs from rfl, hmax]
      exact List.mem_cons_of_mem _ hd
    · push_neg at hpv
      have hmax : max peak v = peak := max_eq_left (le_of_lt hpv)
      refine ⟨(v - max peak v) / max peak v, List.mem_cons_self _ _, ?_⟩
      rw [hmax]
      exact div_neg_of_neg_of_pos (sub_neg.mpr hpv) hp

/-- C3: for a non-empty series of positive portfolio values, the maximum
drawdown — the minimum over all indices of
`(value - running peak) / running peak` — is nonpositive, and it is zero
exactly when the value series never decreases. -/
theorem maxDrawdown_spec (values : List ℚ) (hne : values ≠ [])
    (hpos : ∀ v ∈ values, 0 < v) :
    maxDrawdown values ≤ 0 ∧
      (maxDrawdown values = 0 ↔ values.Chain' (· ≤ ·)) := by
  obtain ⟨v, vs, rfl⟩ := List.exists_cons_of_ne_nil hne
  have hv : 0 < v := hpos v (List.mem_cons_self v vs)
  have hpostail : ∀ u ∈ vs, 0 < u :=
    fun u hu => hpos u (List.mem_cons_of_mem v hu)
  have hdd : ddWalk v (v :: vs) = 0 :: ddWalk v vs := by
    rw [show ddWalk v (v :: vs) =
      ((v - max v v) / max v v) :: ddWalk (max v v) vs from rfl,
      max_self, sub_self, zero_div]
  have hMD : maxDrawdown (v :: vs) = (ddWalk v vs).foldl min 0 := by
    rw [show maxDrawdown (v :: vs) = listMin (ddWalk v (v :: vs)) from rfl, hdd]
    rfl
  have hchainIff : List.Chain' (· ≤ ·) (v :: vs) ↔ List.Chain (· ≤ ·) v vs :=
    Iff.rfl
  refine ⟨?_, ?_, ?_⟩
  · rw [hMD]
    exact foldl_min_le_init _ 0
  · intro h0
    rw [hchainIff]
    by_contra hnc
    obtain ⟨d, hd, hdneg⟩ := ddWalk_neg_of_not_chain vs v hv hpostail hnc
    have hle : (ddWalk v vs).foldl min 0 ≤ d := foldl_min_le_mem _ 0 hd
    rw [hMD] at h0
    linarith
  · intro hc
    have hz : ∀ d ∈ ddWalk v vs, d = 0 :=
      ddWalk_zero_of_chain vs v (hchainIff.mp hc)
    rw [hMD]
    exact le_antisymm (foldl_min_le_init _ 0)
      (le_foldl_min _ 0 (le_refl 0) fun x hx => le_of_eq (hz x hx).symm)

/-- Witness for C3: scenario 1 values `[10000, 11000, 9000, 12000]` — a
decreasing step exists, so the maximum drawdown is strictly negative. -/
theorem maxDrawdown_spec_witness :
    ([(10000 : ℚ), 11000, 9000, 12000] ≠ []) ∧
    (∀ v ∈ [(10000 : ℚ), 11000, 9000, 12000], 0 < v) ∧
    (maxDrawdown [(10000 : ℚ), 11000, 9000, 12000] ≤ 0 ∧
      (maxDrawdown [(10000 : ℚ), 11000, 9000, 12000] = 0 ↔
        List.Chain' (· ≤ ·) [(10000 : ℚ), 11000, 9000, 12000])) :=
  ⟨by simp, by norm_num,
    maxDrawdown_spec [10000, 11000, 9000, 12000] (by simp) (by norm_num)⟩

/-- A zero sample variance forces a zero volatility. -/
theorem volatility_eq_zero_of_sampleVar (l : List ℚ) (hvar : sampleVar l = 0) :
    volatility l = 0 := by
  unfold volatility
  rw [hvar]
  simp

/-- C4: the Sharpe ratio equals
`(mean(daily_returns) * 252 - risk_free_rate) / volatility` whenever the
volatility is non-zero, and is `0` when the volatility is `0`, so the
division is never performed with a zero divisor; in particular a series of
fewer than two return observations, or a flat return series, yields `0`. -/
theorem sharpe_spec (l : List ℚ) (rf : ℝ) :
    (volatility l ≠ 0 →
      sharpe l rf = ((mean l : ℝ) * 252 - rf) / volatility l) ∧
    (volatility l = 0 → sharpe l rf = 0) ∧
    (l.length < 2 → sharpe l rf = 0) ∧
    (∀ c : ℚ, (∀ x ∈ l, x = c) → sharpe l rf = 0) := by
  refine ⟨?_, ?_, ?_, ?_⟩
  · intro hne
    unfold sharpe
    rw [if_neg hne]
  · intro h0
    unfold sharpe
    rw [if_pos h0]
  · intro hlen
    have hvar : sampleVar l = 0 := by
      unfold sampleVar
      rw [if_pos hlen]
    unfold sharpe
    rw [if_pos (volatility_eq_zero_of_sampleVar l hvar)]
  · intro c hc
    by_cases hlen : l.length < 2
    · have hvar : sampleVar l = 0 := by
        unfold sampleVar
        rw [if_pos hlen]
      unfold sharpe
      rw [if_pos (volatility_eq_zero_of_sampleVar l hvar)]
    · have hn : (l.length : ℚ) ≠ 0 := by
        have : l.length ≠ 0 := by omega
        exact_mod_cast this
      have hmean : mean l = c := by
        unfold mean
        rw [List.sum_eq_card_nsmul l c hc, nsmul_eq_mul, mul_comm,
          mul_div_assoc, div_self hn, mul_one]
      have hvar : sampleVar l = 0 := by
        unfold sampleVar
        rw [if_neg hlen, List.sum_eq_zero, zero_div]
        intro x hx
        obtain ⟨r, hr, rfl⟩ := List.mem_map.mp hx
        rw [hmean, hc r hr, sub_self]
        norm_num
      unfold sharpe
      rw [if_pos (volatility_eq_zero_of_sampleVar l hvar)]

/-- Witness for C4: a flat two-observation return series has zero
volatility, so the Sharpe ratio is `0` rather than a division by zero. -/
theorem sharpe_spec_witness :
    sharpe [1 / 100, 1 / 100] (2 / 100) = 0 :=
  (sharpe_spec [1 / 100, 1 / 100] (2 / 100)).2.2.2 (1 / 100) (by simp)

/-- The invested capital after the DCA walk grows by `amount` per
purchase event. -/
theorem dcaWalk_invested (amount : ℚ) :
    ∀ (l : List PricePoint) (st : DcaState),
      (dcaWalk amount st l).2.invested =
        st.invested + amount * purchaseCount st.lastMonth (monthsOf l) := by
  intro l
  induction l with
  | nil =>
    intro st
    show st.invested = st.invested + amount * purchaseCount st.lastMonth []
    rw [show purchaseCount st.lastMonth [] = 0 from rfl]
    push_cast
    ring
  | cons p ps ih =>
    intro st
    show (dcaWalk amount (dcaStep amount st p) ps).2.invested =
      st.invested + amount *
        (if st.lastMonth = some (monthIdx p.date)
          then purchaseCount st.lastMonth (monthsOf ps)
          else purchaseCount (some (monthIdx p.date)) (monthsOf ps) + 1)
    rw [ih (dcaStep amount st p)]
    unfold dcaStep
    by_cases h : st.lastMonth = some (monthIdx p.date)
    · rw [if_pos h, if_pos h]
    · rw [if_neg h, if_neg h]
      push_cast
      ring

/-- Inserting an element always makes the set one larger than the set
with that element erased. -/
theorem card_insert_erase (s : Finset ℕ) (k : ℕ) :
    (insert k s).card = (s.erase k).card + 1 := by
  have h1 : insert k s = insert k (s.erase k) := by
    ext x
    by_cases hx : x = k <;> simp [hx]
  rw [h1, Finset.card_insert_of_not_mem (Finset.not_mem_erase k s)]

/-- Over a sorted month list bounded below by the last purchase month,
the purchase count is the number of distinct further months. -/
theorem purchaseCount_sorted (ms : List Nat) :
    ∀ m : Nat, (∀ x ∈ ms, m ≤ x) → ms.Pairwise (· ≤ ·) →
      purchaseCount (some m) ms = (ms.toFinset.erase m).card := by
  induction ms with
  | nil =>
    intro m _ _
    simp [purchaseCount]
  | cons k ks ih =>
    intro m hle hpw
    obtain ⟨hk, hpw'⟩ := List.pairwise_cons.mp hpw
    show (if some m = some k then purchaseCount (some m) ks
          else purchaseCount (some k) ks + 1) = _
    by_cases hmk : m = k
    · subst hmk
      rw [if_pos rfl, ih m hk hpw', List.toFinset_cons,
        Finset.erase_insert_eq_erase]
    · have hne : (some m : Option Nat) ≠ some k := by simpa using hmk
      rw [if_neg hne, ih k hk hpw', List.toFinset_cons]
      have hmlt : m < k :=
        lt_of_le_of_ne (hle k (List.mem_cons_self k ks)) hmk
      have hnotmem : m ∉ insert k ks.toFinset := by
        simp only [Finset.mem_insert, List.mem_toFinset]
        push_neg
        refine ⟨hmk, ?_⟩
        intro hmem
        have := hk m hmem
        omega
      rw [Finset.erase_eq_of_not_mem hnotmem, card_insert_erase]

/-- Starting before any purchase, the purchase count over a sorted month
list is the number of distinct months in it. -/
theorem purchaseCount_none (l : List Nat) (hpw : l.Pairwise (· ≤ ·)) :
    purchaseCount none l = l.toFinset.card := by
  cases l with
  | nil => simp [purchaseCount]
  | cons m ms =>
    obtain ⟨hm, hpw'⟩ := List.pairwise_cons.mp hpw
    have h1 : purchaseCount none (m :: ms) = purchaseCount (some m) ms + 1 := by
      simp [purchaseCount]
    rw [h1, purchaseCount_sorted ms m hm hpw', List.toFinset_cons,
      card_insert_erase]

/-- `monthIdx` is monotone along the date order, for valid months. -/
theorem monthIdx_mono_of_dateLt {a b : Date}
    (ha : 1 ≤ a.month ∧ a.month ≤ 12) (hb : 1 ≤ b.month ∧ b.month ≤ 12)
    (h : dateLt a b) : monthIdx a ≤ monthIdx b := by
  unfold dateLt at h
  unfold monthIdx
  obtain ⟨ha1, ha2⟩ := ha
  obtain ⟨hb1, hb2⟩ := hb
  rcases h with h | ⟨hy, h⟩
  · have : a.year + 1 ≤ b.year := h
    nlinarith
  · rcases h with h | ⟨hm, _⟩ <;> omega

/-- The month numbers of a valid, date-sorted series are sorted. -/
theorem monthsOf_pairwise (series : List PricePoint)
    (hvalid : ∀ q ∈ series, 1 ≤ q.date.month ∧ q.date.month ≤ 12)
    (hsorted : series.Pairwise (fun a b => dateLt a.date b.date)) :
    (monthsOf series).Pairwise (· ≤ ·) := by
  unfold monthsOf
  rw [List.pairwise_map]
  exact hsorted.imp_of_mem fun {a b} ha hb hab =>
    monthIdx_mono_of_dateLt (hvalid a ha) (hvalid b hb) hab

/-- C2: a valid DCA simulation (positive amount, valid months, strictly
increasing dates) reports a total invested equal to the per-period amount
times the number of distinct calendar months touched by the series, and
its first purchase happens on the first date of the series: the first
trajectory point already carries invested capital `amount` and holds
`amount / close[0]` shares. -/
theorem dca_spec (amount : ℚ) (p0 : PricePoint) (ps : List PricePoint)
    (hpos : 0 < amount)
    (hvalid : ∀ q ∈ p0 :: ps, 1 ≤ q.date.month ∧ q.date.month ≤ 12)
    (hsorted : (p0 :: ps).Pairwise (fun a b => dateLt a.date b.date)) :
    ∃ traj : List TrajPoint,
      simulateDCA amount (p0 :: ps) =
        .ok (traj, amount * distinctMonthCount (p0 :: ps)) ∧
      traj.head? = some ⟨p0.date, amount / p0.close * p0.close, amount⟩ := by
  have hstep : dcaStep amount dcaInit p0 =
      ⟨amount / p0.close, amount, some (monthIdx p0.date)⟩ := by
    unfold dcaStep dcaInit
    rw [if_neg (by simp)]
    simp
  have hinv : (dcaWalk amount dcaInit (p0 :: ps)).2.invested =
      amount * distinctMonthCount (p0 :: ps) := by
    rw [dcaWalk_invested amount (p0 :: ps) dcaInit]
    unfold distinctMonthCount
    rw [show dcaInit.lastMonth = none from rfl,
      purchaseCount_none (monthsOf (p0 :: ps))
        (monthsOf_pairwise _ hvalid hsorted),
      show dcaInit.invested = 0 from rfl, zero_add]
  refine ⟨(dcaWalk amount dcaInit (p0 :: ps)).1, ?_, ?_⟩
  · unfold simulateDCA
    rw [if_neg (not_le.mpr hpos)]
    show Except.ok ((dcaWalk amount dcaInit (p0 :: ps)).1,
      (dcaWalk amount dcaInit (p0 :: ps)).2.invested) = _
    rw [hinv]
  · show ((⟨p0.date, (dcaStep amount dcaInit p0).shares * p0.close,
        (dcaStep amount dcaInit p0).invested⟩ : TrajPoint) ::
        (dcaWalk amount (dcaStep amount dcaInit p0) ps).1).head? = _
    rw [hstep]
    rfl

/-- Witness for C2: monthly contributions of 1000 over four trading days
spanning three calendar months invest 3000 in total, with the first
purchase on the series' first date. -/
theorem dca_spec_witness :
    (0 : ℚ) < 1000 ∧
    ∃ traj : List TrajPoint,
      simulateDCA 1000
          (⟨⟨2020, 1, 2⟩, 50⟩ ::
            [⟨⟨2020, 1, 15⟩, 52⟩, ⟨⟨2020, 2, 3⟩, 55⟩, ⟨⟨2020, 3, 2⟩, 45⟩]) =
        .ok (traj, 1000 * distinctMonthCount
          (⟨⟨2020, 1, 2⟩, 50⟩ ::
            [⟨⟨2020, 1, 15⟩, 52⟩, ⟨⟨2020, 2, 3⟩, 55⟩, ⟨⟨2020, 3, 2⟩, 45⟩])) ∧
      traj.head? = some ⟨(⟨2020, 1, 2⟩ : Date), (1000 : ℚ) / 50 * 50, 1000⟩ :=
  ⟨by norm_num,
    dca_spec 1000 ⟨⟨2020, 1, 2⟩, 50⟩
      [⟨⟨2020, 1, 15⟩, 52⟩, ⟨⟨2020, 2, 3⟩, 55⟩, ⟨⟨2020, 3, 2⟩, 45⟩]
      (by norm_num) (by decide) (by decide)⟩

end Backtester
